import Mathlib

/-!
Verification of the `particles` repository (scoped thread pool and the
parallel count-buffer accumulation) against its natural-language
specification.

The development shallowly embeds the relevant Rust source:

* `src/scoped_threadpool.rs` — pool construction (`Pool::new`,
  `Pool::thread_count`), the worker loop, `Scope::execute` and
  `Scope::join_all`.  The job channel / join handshake is modelled as a
  small-step transition system over a FIFO message queue and a multiset of
  worker states.
* `src/app_softbuffer.rs` — the per-frame count-buffer accumulation that
  rasterizes particle positions into a `Vec<AtomicU16>` grid with
  `fetch_add`, and the chunk partitioning of the particle slice.
* `src/particles.rs` — `Particles::add_particles` and the chunk length
  policy in `Particles::update`.

Machine integers are modelled as `Nat` with explicit `% 2^w` where the
source performs wrapping arithmetic (`as u32`, `as usize`, `AtomicU16`
wrapping `fetch_add`).  `f32` particle positions are modelled as `ℚ`:
the accumulation only compares positions against small integer bounds and
truncates them toward zero, and both operations are exact on `f32` for
the window dimensions the code can encounter (below `2^24`), so the
rational model is faithful there.  Fallible operations (slice indexing,
the `assert!` in `Pool::new`, `unwrap` on channel results) return
`Option` / `Except`.
-/

namespace Particles

/-! ## Pool construction (`Pool::new`, `Pool::thread_count`)

`Pool::new(n)` runs `assert!(n >= 1)` and then spawns exactly `n`
worker threads, storing one `ThreadData` per worker in `threads`.
`Pool::thread_count` returns `self.threads.len() as u32`.  The assert
failure (a panic) is modelled as `none`; the `as u32` cast is modelled
as `% 2^32`. -/

/-- The pool as far as construction data is concerned: one entry of
thread bookkeeping per spawned worker (`threads` in `Pool`). -/
structure Pool where
  threads : List Unit

/-- `Pool::new`: `assert!(n >= 1)`, then spawn `n` threads. -/
def poolNew (n : Nat) : Option Pool :=
  if 1 ≤ n then some ⟨List.replicate n ()⟩ else none

/-- `Pool::thread_count`: `self.threads.len() as u32`. -/
def threadCount (p : Pool) : Nat :=
  p.threads.length % 2 ^ 32

/-! ## Chunk partitioning (`Particles::update`, `App::window_event`)

Both call sites compute
`usize::max(len / thread_count / 10, 1)` as the chunk length and then
split the particle slice with `chunks`, which yields contiguous chunks
of that length (the final chunk may be shorter). -/

/-- The chunk length policy
`usize::max(particles.len() / thread_count / 10, 1)`. -/
def chunkLen (len workers : Nat) : Nat :=
  max (len / workers / 10) 1

/-- Rust `slice::chunks c`: contiguous chunks of length `c`, last chunk
possibly shorter.  The source always calls it with `c ≥ 1` (the outer
`usize::max (_, 1)`); the inner `max c 1` only makes the recursion total
and agrees with the source on every actual call. -/
def chunkList (c : Nat) : List α → List (List α)
  | [] => []
  | x :: l => ((x :: l).take (max c 1)) :: chunkList c ((x :: l).drop (max c 1))
termination_by xs => xs.length
decreasing_by
  simp only [List.length_drop, List.length_cons]
  omega

/-! ## `Particles::add_particles`

```
let mut n = n;
if self.particles.is_empty() {
    self.particles.push(Particle::new_random(width, height));
    n = n.saturating_sub(1);
}
let mut i = rand::thread_rng().gen_range(0..self.particles.len());
let part_len = self.particles.len();
for _ in 0..n {
    self.particles
        .push(Particle::new_from_existing(&self.particles[i % part_len]));
    i += 1;
}
```

The particle payload is irrelevant to the claims, so the element type is
a parameter `P`; the two random constructors are parameters `newRandom`
(the value `Particle::new_random(width, height)` produced) and `newFrom`
(`Particle::new_from_existing`), and the sampled start index
`gen_range(0..len)` is the parameter `i0`.  `self.particles[i % part_len]`
always indexes below `part_len ≤` current length, so the `getD` default
`dflt` is never consulted. -/

/-- The push loop `for _ in 0..n { push(new_from_existing(&particles[i % part_len])) }`. -/
def addParticlesGo (newFrom : P → P) (dflt : P) (partLen : Nat) :
    List P → Nat → Nat → List P
  | ps, _, 0 => ps
  | ps, i, m + 1 =>
      addParticlesGo newFrom dflt partLen
        (ps ++ [newFrom (ps.getD (i % partLen) dflt)]) (i + 1) m

/-- `Particles::add_particles`. -/
def addParticles (ps : List P) (n : Nat) (newRandom : P) (newFrom : P → P)
    (i0 : Nat) (dflt : P) : List P :=
  let ps1 := if ps.isEmpty then ps ++ [newRandom] else ps
  let n1 := if ps.isEmpty then n - 1 else n
  addParticlesGo newFrom dflt ps1.length ps1 i0 n1

/-! ## The count-buffer accumulation (`App::window_event`, `RedrawRequested`)

```
let inside = *x >= 0.0
    && *x < (width as f32 - 1.0)
    && *y >= 0.0
    && *y < (height as f32 - 1.0);

let x = (*x as usize).clamp(0, width as usize - 1);
let y = (*y as usize).clamp(0, height as usize - 1);

count_buffer_ref[x + y * width as usize]
    .fetch_add(inside as u16, Ordering::Relaxed);
```

run for every particle position of every chunk, on a buffer of
`width * height` `AtomicU16` cells previously stored to `0`.

Modelling decisions, each tied to a source construct:
* positions are `ℚ`; `width as f32 - 1.0` is modelled exactly as
  `(width : ℚ) - 1` (exact on `f32` whenever `width < 2^24`, which holds
  for every `u32` window dimension softbuffer accepts);
* `*x as usize` saturates: negative values go to `0`, values beyond
  `usize::MAX` to `usize::MAX`, and otherwise truncates toward zero
  (`Rat.floor` for nonnegative input);
* `width as usize - 1` is `usize` arithmetic: release-mode wrapping
  subtraction, modelled as `(w + 2^64 - 1) % 2^64` (a debug build would
  already panic here for `w = 0`, and the claims treated below fault
  either way);
* `x + y * width` is `usize` arithmetic, modelled `% 2^64`;
* `fetch_add` on `AtomicU16` wraps, modelled `% 2^16`;
* indexing `count_buffer_ref[idx]` out of bounds panics: the
  accumulation returns `none` there. -/

/-- `usize::MAX`. -/
def usizeMax : Nat := 2 ^ 64 - 1

/-- Rust `f32 as usize` (saturating cast; truncation toward zero),
for a position value modelled as `ℚ`. -/
def f32ToUsize (q : ℚ) : Nat :=
  if q < 0 then 0 else min q.floor.toNat usizeMax

/-- `usize` subtraction `w - 1` in release mode (wrapping). -/
def usizeSub1 (w : Nat) : Nat :=
  (w + 2 ^ 64 - 1) % 2 ^ 64

/-- `inside`: the bounds test of the accumulation job. -/
def insideFlag (W H : Nat) (p : ℚ × ℚ) : Bool :=
  decide (0 ≤ p.1) && decide (p.1 < (W : ℚ) - 1) &&
    decide (0 ≤ p.2) && decide (p.2 < (H : ℚ) - 1)

/-- The buffer index `x + y * width` after the two clamps
(`clamp(0, dim - 1)` on a `usize` is `min _ (dim - 1)`). -/
def cellIndex (W H : Nat) (p : ℚ × ℚ) : Nat :=
  (min (f32ToUsize p.1) (usizeSub1 W) +
    min (f32ToUsize p.2) (usizeSub1 H) * W) % 2 ^ 64

/-- One `fetch_add(inside as u16)` of one particle position into the
count buffer; `none` models the out-of-bounds panic of
`count_buffer_ref[...]`. -/
def accumElem (W H : Nat) (buf : List Nat) (p : ℚ × ℚ) : Option (List Nat) :=
  if cellIndex W H p < buf.length then
    some (buf.set (cellIndex W H p)
      ((buf.getD (cellIndex W H p) 0 + (if insideFlag W H p then 1 else 0)) % 2 ^ 16))
  else none

/-- Folding the per-position update over a position list (one job body,
or the whole round when run over all positions). -/
def accumList (W H : Nat) (acc : Option (List Nat)) (ps : List (ℚ × ℚ)) :
    Option (List Nat) :=
  ps.foldl (fun a p => a.bind (fun b => accumElem W H b p)) acc

/-- The zeroed count buffer of a `W × H` frame
(`count_buffer` after the `store(0, Relaxed)` loop). -/
def zeroGrid (W H : Nat) : List Nat :=
  List.replicate (W * H) 0

/-- The whole accumulation round: zeroed buffer, then every particle
position.  The round is insensitive to the order positions are folded in
(proved below), so this sequential fold is the semantics of the
concurrent round. -/
def accumulate (ps : List (ℚ × ℚ)) (W H : Nat) : Option (List Nat) :=
  accumList W H (some (zeroGrid W H)) ps

/-- The round-1 job body `move |_| { ... }` for one chunk: the closure
discards the worker index supplied by the pool (the `|_|` pattern) and
updates the one shared `count_buffer` through `count_buffer_ref`. -/
def round1Job ( _workerId : Nat) (chunk : List (ℚ × ℚ)) (W H : Nat)
    (buf : List Nat) : Option (List Nat) :=
  accumList W H (some buf) chunk

/-- The exact per-cell count realized by the code: an element contributes
to cell `(cx, cy)` exactly when it passes the `inside` test and its
truncated coordinates are `(cx, cy)`. -/
def codeCellCount (ps : List (ℚ × ℚ)) (W H cx cy : Nat) : Nat :=
  ps.countP fun p =>
    insideFlag W H p && (f32ToUsize p.1 == cx) && (f32ToUsize p.2 == cy)

/-- The spec sentence behind C4, stated in its own words (refinement
target, deliberately NOT taken from the source): an element participates
in cell `(cx, cy)` when its position lies in `[0, W) × [0, H)` — only
positions at or beyond the grid edge (`x ≥ W`, `y ≥ H`) or negative ones
are excluded — and its truncated coordinates are `(cx, cy)`. -/
def claimCellPred (W H cx cy : Nat) (p : ℚ × ℚ) : Bool :=
  decide (0 ≤ p.1) && decide (p.1 < (W : ℚ)) &&
    decide (0 ≤ p.2) && decide (p.2 < (H : ℚ)) &&
    (f32ToUsize p.1 == cx) && (f32ToUsize p.2 == cy)

/-- The grid the C4 claim describes: cell `(x, y)` holds the exact
number of elements whose position falls in that cell. -/
def claimGrid (ps : List (ℚ × ℚ)) (W H : Nat) : List Nat :=
  (List.range (W * H)).map fun i => ps.countP (claimCellPred W H (i % W) (i / W))

/-! ## The job channel and the join barrier
(`Pool::new` worker loop, `Scope::execute`, `Scope::join_all`)

The runtime behaviour of the pool is a transition system over

* the shared FIFO job channel (`job_sender` / `job_receiver`): jobs and
  `Join` messages are consumed strictly in the order they were sent, one
  at a time, under the `Mutex` around `job_receiver`, so the channel is
  modelled as a fixed message list `q` plus a consumption counter `k`
  (the queue content is `q.drop k`);
* the multiset of worker-loop states: a worker is `idle` (blocked in
  `lock.recv()`), `busy sc t` (inside `job.call_box(id)` for job `t` of
  scope `sc`), or `paused` (it dequeued `Join`, sent on its
  `pool_sync_tx` and is blocked on `thread_sync_rx.recv()` until the
  scope finishes the barrier) — worker identity is irrelevant to the
  protocol, hence a multiset;
* the multiset of jobs whose `call_box` has returned (`completed`), the
  observable side effects;
* `acked`: whether `join_all`'s first loop (one blocking
  `pool_sync_rx.recv()` per worker) has completed, which happens exactly
  when every worker is `paused`; only then does `join_all` send the
  `thread_sync_tx` resume messages, releasing `paused` workers one by
  one.

For the two-scope claims the message list is
`jobs of scope 1 ++ n Join messages ++ jobs of scope 2`: in the program,
scope 2's jobs are sent only after `join_all` returns, so letting them
sit in the queue from the start only adds behaviours (a worker could
reach them earlier in the model than in reality); the sequencing theorem
holds even for this superset. -/

/-- A message on the shared channel (`enum Message`): a job thunk
(tagged with its scope number and job id for specification purposes) or
`Join`. -/
inductive Msg where
  | jobMsg (sc : Nat) (t : Nat)
  | joinMsg
deriving DecidableEq

/-- One worker's position in its `loop` (`Pool::new`). -/
inductive WState where
  | idle
  | busy (sc : Nat) (t : Nat)
  | paused
deriving DecidableEq

/-- Global protocol state. -/
structure PoolSt where
  k : Nat
  workers : Multiset WState
  completed : Multiset (Nat × Nat)
  acked : Bool
deriving DecidableEq

/-- The message sequence sent for scope 1's jobs, scope 1's
`join_all` (one `Join` per worker), then scope 2's jobs. -/
def scopeQueue (jobs1 : List Nat) (n : Nat) (jobs2 : List Nat) : List Msg :=
  jobs1.map (Msg.jobMsg 1) ++ List.replicate n Msg.joinMsg ++
    jobs2.map (Msg.jobMsg 2)

/-- The transitions of the pool protocol. -/
inductive Step (q : List Msg) : PoolSt → PoolSt → Prop where
  | dequeueJob {s : PoolSt} {sc t : Nat} :
      WState.idle ∈ s.workers → q[s.k]? = some (Msg.jobMsg sc t) →
      Step q s ⟨s.k + 1, WState.busy sc t ::ₘ s.workers.erase WState.idle,
        s.completed, s.acked⟩
  | dequeueJoin {s : PoolSt} :
      WState.idle ∈ s.workers → q[s.k]? = some Msg.joinMsg →
      Step q s ⟨s.k + 1, WState.paused ::ₘ s.workers.erase WState.idle,
        s.completed, s.acked⟩
  | finish {s : PoolSt} {sc t : Nat} :
      WState.busy sc t ∈ s.workers →
      Step q s ⟨s.k, WState.idle ::ₘ s.workers.erase (WState.busy sc t),
        (sc, t) ::ₘ s.completed, s.acked⟩
  | ack {s : PoolSt} :
      (∀ w ∈ s.workers, w = WState.paused) →
      Step q s ⟨s.k, s.workers, s.completed, true⟩
  | resume {s : PoolSt} :
      s.acked = true → WState.paused ∈ s.workers →
      Step q s ⟨s.k, WState.idle ::ₘ s.workers.erase WState.paused,
        s.completed, s.acked⟩

/-- All workers start `idle`, nothing consumed, nothing completed. -/
def initSt (n : Nat) : PoolSt :=
  ⟨0, Multiset.replicate n WState.idle, 0, false⟩

/-- Reachability from the initial state along the protocol. -/
def Reach (jobs1 : List Nat) (n : Nat) (jobs2 : List Nat) (s : PoolSt) : Prop :=
  Relation.ReflTransGen (Step (scopeQueue jobs1 n jobs2)) (initSt n) s

/-- The jobs currently being executed by some worker. -/
def busyTags (ws : Multiset WState) : Multiset (Nat × Nat) :=
  ws.filterMap fun w =>
    match w with
    | WState.busy sc t => some (sc, t)
    | _ => none

/-- The jobs still sitting in a message list. -/
def queueTags (q : List Msg) : Multiset (Nat × Nat) :=
  ↑(q.filterMap fun m =>
    match m with
    | Msg.jobMsg sc t => some (sc, t)
    | _ => none)

/-- How many `Join` messages a message list holds. -/
def joinCount (q : List Msg) : Nat :=
  q.countP fun m => decide (m = Msg.joinMsg)

/-- The completed jobs of one scope. -/
def completedOf (sc : Nat) (s : PoolSt) : Multiset (Nat × Nat) :=
  s.completed.filter fun pr => pr.1 = sc

/-- Some job of scope 2 has started (is running or has run). -/
def started2 (s : PoolSt) : Prop :=
  (∃ t, (2, t) ∈ s.completed) ∨ (∃ t, WState.busy 2 t ∈ s.workers)

/-- The protocol invariant.  `hcons` is job conservation; `hjoin` counts
the two-phase handshake; `hacked`/`hpre` delimit what can have happened
before/after the barrier completed. -/
structure Inv (jobs1 : List Nat) (n : Nat) (jobs2 : List Nat)
    (s : PoolSt) : Prop where
  hcard : Multiset.card s.workers = n
  hcons : s.completed + busyTags s.workers +
      queueTags ((scopeQueue jobs1 n jobs2).drop s.k)
        = queueTags (scopeQueue jobs1 n jobs2)
  hjoin : s.acked = false →
    s.workers.count WState.paused +
      joinCount ((scopeQueue jobs1 n jobs2).drop s.k) = n
  hacked : s.acked = true →
    jobs1.length + n ≤ s.k ∧ ∀ t, WState.busy 1 t ∉ s.workers
  hpre : s.acked = false →
    s.k ≤ jobs1.length + n ∧ (∀ pr ∈ s.completed, pr.1 = 1) ∧
      ∀ sc t, WState.busy sc t ∈ s.workers → sc = 1

/-! ## Failure semantics (`Scope::execute`, `Scope::join_all` after a
worker panic)

A job that panics unwinds its worker thread: that worker's clone of the
`Arc<Mutex<Receiver>>` and its `pool_sync_tx` are dropped.  `alive`
records, per worker, whether its thread is still running its loop.

* `Scope::execute` is `job_sender.send(Message::NewJob(..)).unwrap()`:
  an mpsc `send` never blocks, and it returns `Err` (so the `unwrap`
  panics) exactly when the receiver side is fully disconnected — that
  is, when every worker has exited.
* `Scope::join_all` first `send(Message::Join).unwrap()`s one message
  per worker (failing likewise only with no receivers), then receives
  one acknowledgment per worker in a loop over all `threads`: a live
  worker's `recv` succeeds once that worker pauses, a dead worker's
  returns `RecvError` immediately and only sets `worker_panic`.  Only
  after the loop — all surviving workers paused — does it
  `panic!("Thread pool worker panicked")`.

This stateless per-call model speaks only for the FIRST `join_all` that
runs after the panic (the enclosing scope's).  That call panics before
its resume loop, leaving the surviving workers parked on
`thread_sync_rx.recv()`, so later `join_all` calls on the same pool are
in a different (stuck) regime that this model does not describe, and no
theorem below asserts anything about them. -/

/-- Number of workers still running their loop. -/
def aliveCount (alive : List Bool) : Nat := alive.count true

/-- `Scope::execute`: non-blocking `send` + `unwrap`. -/
def executeResult (alive : List Bool) : Except String Unit :=
  if aliveCount alive = 0 then Except.error "sending on a closed channel"
  else Except.ok ()

/-- The acknowledgment collected from each worker by `join_all`'s first
loop: `none` for a worker whose thread died (broken sync channel). -/
def collectAcks (alive : List Bool) : List (Option Unit) :=
  alive.map fun a => if a then some () else none

/-- `Scope::join_all`: send the `Join` messages, collect every
acknowledgment, then re-raise a worker panic. -/
def joinAllResult (alive : List Bool) : Except String Unit :=
  if aliveCount alive = 0 then Except.error "sending on a closed channel"
  else if (collectAcks alive).any (fun o => o.isNone) then
    Except.error "Thread pool worker panicked"
  else Except.ok ()

theorem chunkList_cons (c : Nat) (x : α) (l : List α) :
    chunkList c (x :: l) =
      ((x :: l).take (max c 1)) :: chunkList c ((x :: l).drop (max c 1)) := by
  rw [chunkList]

/-- Concatenating the chunks gives back the original sequence:
the chunks are contiguous and in order. -/
theorem chunkList_join (c : Nat) (xs : List α) :
    (chunkList c xs).flatten = xs := by
  induction xs using chunkList.induct c with
  | case1 => simp [chunkList]
  | case2 x l ih =>
    rw [chunkList_cons]
    simp [ih]

/-- Each chunk holds at most `max c 1` elements, so the chunk count times
the chunk length covers the sequence. -/
theorem length_le_chunkList_mul (c : Nat) (xs : List α) :
    xs.length ≤ (chunkList c xs).length * max c 1 := by
  induction xs using chunkList.induct c with
  | case1 => simp [chunkList]
  | case2 x l ih =>
    rw [chunkList_cons]
    have hm : 1 ≤ max c 1 := le_max_right c 1
    simp only [List.length_cons, List.length_drop, Nat.succ_mul, add_one_mul] at ih ⊢
    omega

/-- The number of chunks is the ceiling of `length / chunk length`. -/
theorem chunkList_length (c : Nat) (xs : List α) :
    (chunkList c xs).length = (xs.length + max c 1 - 1) / max c 1 := by
  have hm : 1 ≤ max c 1 := le_max_right c 1
  induction xs using chunkList.induct c with
  | case1 =>
    simp only [chunkList, List.length_nil, Nat.zero_add]
    rw [Nat.div_eq_of_lt (by omega)]
  | case2 x l ih =>
    rw [chunkList_cons]
    simp only [List.length_cons, List.length_drop] at ih ⊢
    rw [ih]
    have key : (l.length + 1 + max c 1 - 1) / max c 1
        = (l.length + 1 - 1) / max c 1 + 1 := by
      have h : l.length + 1 + max c 1 - 1 = (l.length + 1 - 1) + max c 1 := by omega
      rw [h, Nat.add_div_right _ (by omega)]
    rw [key]
    rcases le_or_lt (l.length + 1) (max c 1) with hle | hlt
    · have h0 : l.length + 1 - max c 1 = 0 := by omega
      rw [h0, Nat.div_eq_of_lt (by omega : 0 + max c 1 - 1 < max c 1),
        Nat.div_eq_of_lt (by omega : l.length + 1 - 1 < max c 1)]
    · have h1 : l.length + 1 - max c 1 + max c 1 - 1 = l.length + 1 - 1 := by omega
      rw [h1]
theorem addParticlesGo_length (newFrom : P → P) (dflt : P) (partLen : Nat)
    (ps : List P) (i m : Nat) :
    (addParticlesGo newFrom dflt partLen ps i m).length = ps.length + m := by
  induction m generalizing ps i with
  | zero => rfl
  | succ m ih =>
    rw [addParticlesGo, ih]
    simp
    omega

/-! ### Helper lemmas about the accumulation -/

theorem ratFloor_eq_floor (q : ℚ) : q.floor = ⌊q⌋ := by
  rw [Rat.floor_def', Rat.floor_def]

theorem accumList_none (W H : Nat) (ps : List (ℚ × ℚ)) :
    accumList W H none ps = none := by
  induction ps with
  | nil => rfl
  | cons p l ih => exact ih

theorem accumList_append (W H : Nat) (acc : Option (List Nat))
    (xs ys : List (ℚ × ℚ)) :
    accumList W H acc (xs ++ ys) = accumList W H (accumList W H acc xs) ys :=
  List.foldl_append _ _ _ _

theorem accumList_bind (W H : Nat) (acc : Option (List Nat))
    (xs : List (ℚ × ℚ)) :
    acc.bind (fun b => accumList W H (some b) xs) = accumList W H acc xs := by
  cases acc with
  | none => rw [accumList_none]; rfl
  | some b => rfl

theorem accumElem_of_lt {W H : Nat} {b : List Nat} {p : ℚ × ℚ}
    (h : cellIndex W H p < b.length) :
    accumElem W H b p = some (b.set (cellIndex W H p)
      ((b.getD (cellIndex W H p) 0 + (if insideFlag W H p then 1 else 0)) % 2 ^ 16)) := by
  unfold accumElem
  rw [if_pos h]

theorem accumElem_of_not_lt {W H : Nat} {b : List Nat} {p : ℚ × ℚ}
    (h : ¬ cellIndex W H p < b.length) : accumElem W H b p = none := by
  unfold accumElem
  rw [if_neg h]

theorem usizeSub1_eq {W : Nat} (h1 : 1 ≤ W) (h2 : W ≤ 2 ^ 64) :
    usizeSub1 W = W - 1 := by
  unfold usizeSub1
  have h : W + 2 ^ 64 - 1 = (W - 1) + 2 ^ 64 := by omega
  rw [h, Nat.add_mod_right, Nat.mod_eq_of_lt (by omega)]

/-- For `0 ≤ q < n ≤ usize::MAX + 1`, the saturating cast is the floor,
and it stays below `n`. -/
theorem f32ToUsize_eq_floor {q : ℚ} {n : Nat} (h0 : 0 ≤ q) (hq : q < (n : ℚ))
    (hn : n ≤ 2 ^ 64) :
    f32ToUsize q = q.floor.toNat ∧ q.floor.toNat < n := by
  have hfl : q.floor = ⌊q⌋ := ratFloor_eq_floor q
  have hlt : ⌊q⌋ < (n : ℤ) := Int.floor_lt.mpr (by exact_mod_cast hq)
  have hnn : 0 ≤ ⌊q⌋ := Int.floor_nonneg.mpr h0
  have htn : ⌊q⌋.toNat < n := (Int.toNat_lt hnn).mpr hlt
  constructor
  · unfold f32ToUsize
    rw [if_neg (not_lt.mpr h0), hfl]
    exact min_eq_left (by unfold usizeMax; omega)
  · rw [hfl]; exact htn

/-- The clamped buffer index is always inside a `W × H` buffer
(for positive dimensions that a `u32` window can have). -/
theorem cellIndex_lt (W H : Nat) (p : ℚ × ℚ) (hW : 1 ≤ W) (hH : 1 ≤ H)
    (hW2 : W ≤ 2 ^ 24) (hH2 : H ≤ 2 ^ 24) :
    cellIndex W H p =
      min (f32ToUsize p.1) (W - 1) + min (f32ToUsize p.2) (H - 1) * W ∧
    cellIndex W H p < W * H := by
  have hWH : W * H ≤ 2 ^ 64 := by
    calc W * H ≤ 2 ^ 24 * 2 ^ 24 := Nat.mul_le_mul hW2 hH2
    _ ≤ 2 ^ 64 := by norm_num
  have hWle : W ≤ W * H := Nat.le_mul_of_pos_right W (by omega)
  have ha : min (f32ToUsize p.1) (W - 1) ≤ W - 1 := min_le_right _ _
  have hb : min (f32ToUsize p.2) (H - 1) * W ≤ W * H - W := by
    have h1 : min (f32ToUsize p.2) (H - 1) * W ≤ (H - 1) * W :=
      Nat.mul_le_mul (min_le_right _ _) le_rfl
    have h2 : (H - 1) * W = W * H - W := by
      rw [Nat.sub_mul, one_mul, Nat.mul_comm]
    omega
  have hsum : min (f32ToUsize p.1) (W - 1) +
      min (f32ToUsize p.2) (H - 1) * W < W * H := by omega
  unfold cellIndex
  rw [usizeSub1_eq hW (by omega), usizeSub1_eq hH (by omega),
    Nat.mod_eq_of_lt (by omega)]
  exact ⟨rfl, hsum⟩

theorem insideFlag_iff {W H : Nat} {p : ℚ × ℚ} :
    insideFlag W H p = true ↔
      0 ≤ p.1 ∧ p.1 < (W : ℚ) - 1 ∧ 0 ≤ p.2 ∧ p.2 < (H : ℚ) - 1 := by
  unfold insideFlag
  simp [Bool.and_eq_true, decide_eq_true_eq, and_assoc]

/-- Buffer indices `cx + cy * W` with `cx < W` decompose uniquely. -/
theorem cell_pair_inj {W cx cy fx fy : Nat} (hcx : cx < W) (hfx : fx < W)
    (h : cx + cy * W = fx + fy * W) : cx = fx ∧ cy = fy := by
  have h1 : (cx + cy * W) % W = cx := by
    rw [Nat.add_mul_mod_self_right, Nat.mod_eq_of_lt hcx]
  have h2 : (fx + fy * W) % W = fx := by
    rw [Nat.add_mul_mod_self_right, Nat.mod_eq_of_lt hfx]
  have hx : cx = fx := by rw [← h1, ← h2, h]
  refine ⟨hx, ?_⟩
  subst hx
  have hyW : cy * W = fy * W := by omega
  exact Nat.eq_of_mul_eq_mul_right (by omega) hyW

theorem getD_set_self {b : List Nat} {i : Nat} (h : i < b.length) (v : Nat) :
    (b.set i v).getD i 0 = v := by
  rw [List.getD_eq_getElem?_getD, List.getElem?_set_self (by simpa using h)]
  rfl

theorem getD_set_ne {b : List Nat} {i j : Nat} (h : i ≠ j) (v : Nat) :
    (b.set i v).getD j 0 = b.getD j 0 := by
  rw [List.getD_eq_getElem?_getD, List.getElem?_set_ne h,
    ← List.getD_eq_getElem?_getD]

/-- One `fetch_add` step, characterized cell by cell. -/
theorem accumElem_getD (W H : Nat) (hW : 1 ≤ W) (hH : 1 ≤ H)
    (hW2 : W ≤ 2 ^ 24) (hH2 : H ≤ 2 ^ 24)
    (b : List Nat) (hlen : b.length = W * H)
    (hvals : ∀ i, b.getD i 0 < 2 ^ 16) (p : ℚ × ℚ) :
    ∃ b', accumElem W H b p = some b' ∧ b'.length = W * H ∧
      (∀ i, b'.getD i 0 < 2 ^ 16) ∧
      ∀ cx cy, cx < W → cy < H →
        b'.getD (cx + cy * W) 0 =
          (b.getD (cx + cy * W) 0 +
            (if insideFlag W H p && (f32ToUsize p.1 == cx) && (f32ToUsize p.2 == cy)
              then 1 else 0)) % 2 ^ 16 := by
  obtain ⟨hidx_eq, hidx_lt⟩ := cellIndex_lt W H p hW hH hW2 hH2
  have hin : cellIndex W H p < b.length := by omega
  refine ⟨_, accumElem_of_lt hin, ?_, ?_, ?_⟩
  · rw [List.length_set]; exact hlen
  · intro i
    by_cases hi : i = cellIndex W H p
    · subst hi
      rw [getD_set_self hin]
      exact Nat.mod_lt _ (by norm_num)
    · rw [getD_set_ne (fun h => hi h.symm)]
      exact hvals i
  · intro cx cy hcx hcy
    by_cases hins : insideFlag W H p = true
    · obtain ⟨hx0, hx1, hy0, hy1⟩ := insideFlag_iff.mp hins
      have hWc : ((W - 1 : Nat) : ℚ) = (W : ℚ) - 1 := by
        push_cast [Nat.cast_sub hW]
        ring
      have hHc : ((H - 1 : Nat) : ℚ) = (H : ℚ) - 1 := by
        push_cast [Nat.cast_sub hH]
        ring
      obtain ⟨hfx_eq, hfx_lt⟩ :=
        f32ToUsize_eq_floor hx0 (by rw [hWc]; exact hx1) (by omega)
      obtain ⟨hfy_eq, hfy_lt⟩ :=
        f32ToUsize_eq_floor hy0 (by rw [hHc]; exact hy1) (by omega)
      have hxW : f32ToUsize p.1 < W := by omega
      have hyH : f32ToUsize p.2 < H := by omega
      have hminx : min (f32ToUsize p.1) (W - 1) = f32ToUsize p.1 :=
        min_eq_left (by omega)
      have hminy : min (f32ToUsize p.2) (H - 1) = f32ToUsize p.2 :=
        min_eq_left (by omega)
      have hidx : cellIndex W H p = f32ToUsize p.1 + f32ToUsize p.2 * W := by
        rw [hidx_eq, hminx, hminy]
      by_cases hcell : f32ToUsize p.1 = cx ∧ f32ToUsize p.2 = cy
      · obtain ⟨e1, e2⟩ := hcell
        have hsame : cx + cy * W = cellIndex W H p := by
          rw [hidx, e1, e2]
        rw [hsame, getD_set_self hin, hins]
        simp [e1, e2]
      · have hne : cellIndex W H p ≠ cx + cy * W := by
          rw [hidx]
          intro h
          exact hcell (cell_pair_inj hxW hcx h)
        rw [getD_set_ne hne]
        have hpred :
            (insideFlag W H p && (f32ToUsize p.1 == cx) && (f32ToUsize p.2 == cy)) = false := by
          rcases Decidable.not_and_iff_or_not.mp hcell with h | h
          · have hb : (f32ToUsize p.1 == cx) = false := by
              simp only [beq_eq_false_iff_ne, ne_eq]; exact h
            simp [hb]
          · have hb : (f32ToUsize p.2 == cy) = false := by
              simp only [beq_eq_false_iff_ne, ne_eq]; exact h
            simp [hb]
        rw [hpred]
        have hb := hvals (cx + cy * W)
        simp only [Bool.false_eq_true, if_false, Nat.add_zero]
        omega
    · have hins' : insideFlag W H p = false := by
        simpa using hins
      have hpred :
          (insideFlag W H p && (f32ToUsize p.1 == cx) && (f32ToUsize p.2 == cy)) = false := by
        rw [hins']
        rfl
      rw [hpred]
      by_cases hi : cx + cy * W = cellIndex W H p
      · rw [hi, getD_set_self hin, hins']
      · rw [getD_set_ne (fun h => hi h.symm)]
        have hb := hvals (cx + cy * W)
        simp only [Bool.false_eq_true, if_false, Nat.add_zero]
        omega

/-- The whole fold, characterized cell by cell. -/
theorem accumList_spec (W H : Nat) (hW : 1 ≤ W) (hH : 1 ≤ H)
    (hW2 : W ≤ 2 ^ 24) (hH2 : H ≤ 2 ^ 24) (ps : List (ℚ × ℚ))
    (b : List Nat) (hlen : b.length = W * H)
    (hvals : ∀ i, b.getD i 0 < 2 ^ 16) :
    ∃ g, accumList W H (some b) ps = some g ∧ g.length = W * H ∧
      (∀ i, g.getD i 0 < 2 ^ 16) ∧
      ∀ cx cy, cx < W → cy < H →
        g.getD (cx + cy * W) 0 =
          (b.getD (cx + cy * W) 0 + codeCellCount ps W H cx cy) % 2 ^ 16 := by
  induction ps generalizing b with
  | nil =>
    refine ⟨b, rfl, hlen, hvals, ?_⟩
    intro cx cy hcx hcy
    unfold codeCellCount
    rw [List.countP_nil, Nat.add_zero, Nat.mod_eq_of_lt (hvals _)]
  | cons p l ih =>
    obtain ⟨b1, hb1, hb1len, hb1vals, hb1cell⟩ :=
      accumElem_getD W H hW hH hW2 hH2 b hlen hvals p
    obtain ⟨g, hg, hglen, hgvals, hgcell⟩ := ih b1 hb1len hb1vals
    refine ⟨g, ?_, hglen, hgvals, ?_⟩
    · show accumList W H ((some b).bind (fun x => accumElem W H x p)) l = some g
      rw [Option.some_bind, hb1]
      exact hg
    · intro cx cy hcx hcy
      rw [hgcell cx cy hcx hcy, hb1cell cx cy hcx hcy]
      unfold codeCellCount
      rw [List.countP_cons, Nat.mod_add_mod]
      congr 1
      split <;> omega

/-- Two single-position updates commute: each touches one cell with a
wrapping add, so the order is irrelevant. -/
theorem accumElem_comm (W H : Nat) (b : List Nat) (p q : ℚ × ℚ) :
    (accumElem W H b p).bind (fun b2 => accumElem W H b2 q)
      = (accumElem W H b q).bind (fun b2 => accumElem W H b2 p) := by
  by_cases hp : cellIndex W H p < b.length <;>
    by_cases hq : cellIndex W H q < b.length
  · have hq2 : cellIndex W H q <
        (b.set (cellIndex W H p)
          ((b.getD (cellIndex W H p) 0 +
            (if insideFlag W H p then 1 else 0)) % 2 ^ 16)).length := by
      rw [List.length_set]; exact hq
    have hp2 : cellIndex W H p <
        (b.set (cellIndex W H q)
          ((b.getD (cellIndex W H q) 0 +
            (if insideFlag W H q then 1 else 0)) % 2 ^ 16)).length := by
      rw [List.length_set]; exact hp
    rw [accumElem_of_lt hp, accumElem_of_lt hq, Option.some_bind,
      Option.some_bind, accumElem_of_lt hq2, accumElem_of_lt hp2]
    by_cases hij : cellIndex W H p = cellIndex W H q
    · rw [← hij, getD_set_self hp, getD_set_self hp, List.set_set, List.set_set]
      have harith : ∀ x u v : Nat,
          ((x + u) % 2 ^ 16 + v) % 2 ^ 16 = ((x + v) % 2 ^ 16 + u) % 2 ^ 16 := by
        intro x u v
        rw [Nat.mod_add_mod, Nat.mod_add_mod, Nat.add_right_comm]
      rw [harith]
    · rw [getD_set_ne hij, getD_set_ne (fun h => hij h.symm),
        List.set_comm _ _ _ hij]
  · have hq2 : ¬ cellIndex W H q <
        (b.set (cellIndex W H p)
          ((b.getD (cellIndex W H p) 0 +
            (if insideFlag W H p then 1 else 0)) % 2 ^ 16)).length := by
      rw [List.length_set]; exact hq
    rw [accumElem_of_lt hp, accumElem_of_not_lt hq, Option.some_bind,
      Option.none_bind, accumElem_of_not_lt hq2]
  · have hp2 : ¬ cellIndex W H p <
        (b.set (cellIndex W H q)
          ((b.getD (cellIndex W H q) 0 +
            (if insideFlag W H q then 1 else 0)) % 2 ^ 16)).length := by
      rw [List.length_set]; exact hp
    rw [accumElem_of_not_lt hp, accumElem_of_lt hq, Option.none_bind,
      Option.some_bind, accumElem_of_not_lt hp2]
  · rw [accumElem_of_not_lt hp, accumElem_of_not_lt hq, Option.none_bind,
      Option.none_bind]

/-- The fold is invariant under permutation of the position list. -/
theorem accumList_perm (W H : Nat) {ps ps' : List (ℚ × ℚ)}
    (h : ps.Perm ps') (acc : Option (List Nat)) :
    accumList W H acc ps = accumList W H acc ps' := by
  induction h generalizing acc with
  | nil => rfl
  | cons x _ ih => exact ih _
  | swap x y l =>
    show accumList W H _ l = accumList W H _ l
    congr 1
    cases acc with
    | none => rfl
    | some b => exact accumElem_comm W H b y x
  | trans _ _ ih1 ih2 => exact (ih1 acc).trans (ih2 acc)

theorem zeroGrid_length (W H : Nat) : (zeroGrid W H).length = W * H := by
  simp [zeroGrid]

theorem zeroGrid_getD (W H i : Nat) : (zeroGrid W H).getD i 0 = 0 := by
  rw [zeroGrid, List.getD_eq_getElem?_getD, List.getElem?_replicate]
  split <;> rfl

theorem f32ToUsize_one : f32ToUsize (1 : ℚ) = 1 := by
  unfold f32ToUsize
  rw [if_neg (by norm_num), ratFloor_eq_floor]
  norm_num [usizeMax]

theorem f32ToUsize_zero : f32ToUsize (0 : ℚ) = 0 := by
  unfold f32ToUsize
  rw [if_neg (by norm_num), ratFloor_eq_floor]
  norm_num

theorem usizeSub1_two : usizeSub1 2 = 1 := by
  norm_num [usizeSub1]

theorem insideFlag_2_2_one_zero : insideFlag 2 2 ((1 : ℚ), 0) = false := by
  unfold insideFlag
  norm_num

theorem cellIndex_2_2_one_zero : cellIndex 2 2 ((1 : ℚ), 0) = 1 := by
  unfold cellIndex
  rw [usizeSub1_two]
  norm_num [f32ToUsize_one, f32ToUsize_zero]

/-- C4 (corrected): on the code, the exclusion boundary of the count
accumulation is `x < W - 1 ∧ y < H - 1`, not `x < W ∧ y < H`: the
`inside` test of `App::window_event` compares against
`width as f32 - 1.0` / `height as f32 - 1.0`.  The produced `W × H`
buffer holds at cell `(cx, cy)` the number — modulo `2^16`, since the
counters are wrapping `AtomicU16` — of elements with position in
`[0, W-1) × [0, H-1)` whose truncated coordinates are `(cx, cy)`;
every other element (negative, at or beyond `W-1`/`H-1`) contributes to
no cell: its clamped index receives `fetch_add 0`. -/
theorem c4_cell_counts (ps : List (ℚ × ℚ)) (W H : Nat)
    (hW : 1 ≤ W) (hW2 : W ≤ 2 ^ 24) (hH : 1 ≤ H) (hH2 : H ≤ 2 ^ 24) :
    ∃ g, accumulate ps W H = some g ∧ g.length = W * H ∧
      ∀ cx cy, cx < W → cy < H →
        g.getD (cx + cy * W) 0 = codeCellCount ps W H cx cy % 2 ^ 16 := by
  obtain ⟨g, hg, hlen, _, hcell⟩ := accumList_spec W H hW hH hW2 hH2 ps
    (zeroGrid W H) (zeroGrid_length W H)
    (fun i => by rw [zeroGrid_getD]; norm_num)
  refine ⟨g, hg, hlen, ?_⟩
  intro cx cy hcx hcy
  rw [hcell cx cy hcx hcy, zeroGrid_getD, Nat.zero_add]

theorem c4_cell_counts_witness :
    ((1 : Nat) ≤ 2 ∧ (2 : Nat) ≤ 2 ^ 24) ∧
    ∃ g, accumulate [((0 : ℚ), 0)] 2 2 = some g ∧ g.length = 2 * 2 ∧
      ∀ cx cy, cx < 2 → cy < 2 →
        g.getD (cx + cy * 2) 0 = codeCellCount [((0 : ℚ), 0)] 2 2 cx cy % 2 ^ 16 :=
  ⟨⟨by norm_num, by norm_num⟩,
    c4_cell_counts [((0 : ℚ), 0)] 2 2 (by norm_num) (by norm_num) (by norm_num)
      (by norm_num)⟩

/-- C4 counterexample: the element at position `(1, 0)` on a `2 × 2`
grid falls in cell `(1, 0)` and is in bounds according to the claim
(`0 ≤ 1 < W = 2`), so the claim predicts cell `(1, 0)` holds `1`; the
code excludes it (`1 < width - 1 = 1` fails) and produces the all-zero
grid. -/
theorem c4_counterexample :
    accumulate [((1 : ℚ), 0)] 2 2 ≠ some (claimGrid [((1 : ℚ), 0)] 2 2) := by
  have h1 : accumulate [((1 : ℚ), 0)] 2 2 = some [0, 0, 0, 0] := by
    unfold accumulate accumList zeroGrid
    rw [List.foldl_cons, List.foldl_nil, Option.some_bind,
      accumElem_of_lt (by rw [cellIndex_2_2_one_zero]; norm_num)]
    rw [cellIndex_2_2_one_zero, insideFlag_2_2_one_zero]
    rfl
  have h2 : (claimGrid [((1 : ℚ), 0)] 2 2).getD 1 0 = 1 := by
    unfold claimGrid claimCellPred
    rw [show (2 * 2 : Nat) = 4 from rfl]
    rw [show List.range 4 = [0, 1, 2, 3] from rfl]
    simp only [List.map_cons, List.map_nil]
    rw [List.getD_eq_getElem?_getD]
    simp only [List.getElem?_cons_succ, List.getElem?_cons_zero, Option.getD_some]
    rw [List.countP_cons, List.countP_nil]
    norm_num [f32ToUsize_one, f32ToUsize_zero]
  intro h
  rw [h1] at h
  have h3 := Option.some.inj h
  rw [← h3] at h2
  simp at h2

theorem usizeSub1_three : usizeSub1 3 = 2 := by
  norm_num [usizeSub1]

theorem insideFlag_3_3_zero : insideFlag 3 3 ((0 : ℚ), 0) = true := by
  unfold insideFlag
  norm_num

theorem cellIndex_3_3_zero : cellIndex 3 3 ((0 : ℚ), 0) = 0 := by
  unfold cellIndex
  rw [usizeSub1_three]
  norm_num [f32ToUsize_zero]

theorem round1_fold_eq (W H w : Nat) (chunks : List (List (ℚ × ℚ)))
    (acc : Option (List Nat)) :
    chunks.foldl (fun a c => a.bind fun b => round1Job w c W H b) acc
      = accumList W H acc chunks.flatten := by
  induction chunks generalizing acc with
  | nil => rfl
  | cons c cs ih =>
    rw [List.foldl_cons, ih, List.flatten_cons, accumList_append]
    congr 1
    exact accumList_bind W H acc c

/-- C5 (amended): round 1 has no per-worker scratch grids.  Every chunk
job updates the single shared `count_buffer` of wrapping atomic
counters via `fetch_add`, and the worker index supplied by the pool is
ignored by the job closure (the `move |_|` pattern): the job behaves
identically whichever worker runs it, and running the chunk jobs over
the shared buffer is exactly the accumulation of the concatenated
chunks.  No locks are involved; the contention safety comes from the
atomics, not from worker-local buffers. -/
theorem c5_shared_buffer (w w' : Nat) (chunks : List (List (ℚ × ℚ)))
    (W H : Nat) :
    (∀ chunk buf, round1Job w chunk W H buf = round1Job w' chunk W H buf) ∧
    chunks.foldl (fun acc c => acc.bind fun b => round1Job w c W H b)
        (some (zeroGrid W H)) = accumulate chunks.flatten W H := by
  refine ⟨fun chunk buf => rfl, ?_⟩
  rw [round1_fold_eq]
  rfl

/-- C5 counterexample: the code keeps one `count_buffer`, not one
scratch grid per worker.  The job for a chunk holding the position
`(0, 0)` performs, when run by worker `1`, exactly the same write to
exactly the same buffer as when run by worker `0` — and that write
changes the buffer.  So whichever single worker "owns" the one buffer,
a job executed by the other worker also writes it, contradicting the
claim that each job writes only the scratch grid owned by its executing
worker, selected by the worker index. -/
theorem c5_counterexample :
    round1Job 0 [((0 : ℚ), 0)] 3 3 (zeroGrid 3 3)
        = round1Job 1 [((0 : ℚ), 0)] 3 3 (zeroGrid 3 3) ∧
    round1Job 1 [((0 : ℚ), 0)] 3 3 (zeroGrid 3 3) ≠ some (zeroGrid 3 3) := by
  refine ⟨rfl, ?_⟩
  have h : round1Job 1 [((0 : ℚ), 0)] 3 3 (zeroGrid 3 3)
      = some [1, 0, 0, 0, 0, 0, 0, 0, 0] := by
    unfold round1Job accumList zeroGrid
    rw [List.foldl_cons, List.foldl_nil, Option.some_bind,
      accumElem_of_lt (by rw [cellIndex_3_3_zero]; norm_num)]
    rw [cellIndex_3_3_zero, insideFlag_3_3_zero]
    rfl
  rw [h]
  intro hc
  have h2 := Option.some.inj hc
  simp [zeroGrid] at h2

/-- C6 (confirmed): the accumulation result is a function of the
element multiset and the grid dimensions alone.  It is invariant under
any permutation of the element sequence (hence under any scheduling or
interleaving of the chunk jobs: the per-cell `fetch_add` updates
commute), unchanged by re-chunking (the chunks concatenate back to the
original sequence), and the worker count appears nowhere in the result
(`c5_shared_buffer` already shows the jobs ignore the worker index).
Re-running it on the same input trivially yields the identical output,
as it is a pure function. -/
theorem c6_determinism (ps ps' : List (ℚ × ℚ)) (W H c : Nat)
    (hperm : ps.Perm ps') :
    accumulate ps W H = accumulate ps' W H ∧
    accumulate ((chunkList c ps).flatten) W H = accumulate ps W H := by
  refine ⟨accumList_perm W H hperm _, ?_⟩
  rw [chunkList_join]

theorem c6_determinism_witness :
    ([((0 : ℚ), 0), ((1 : ℚ), 1)]).Perm [((1 : ℚ), 1), ((0 : ℚ), 0)] ∧
    (accumulate [((0 : ℚ), 0), ((1 : ℚ), 1)] 2 2
        = accumulate [((1 : ℚ), 1), ((0 : ℚ), 0)] 2 2 ∧
      accumulate ((chunkList 1 [((0 : ℚ), 0), ((1 : ℚ), 1)]).flatten) 2 2
        = accumulate [((0 : ℚ), 0), ((1 : ℚ), 1)] 2 2) :=
  ⟨List.Perm.swap _ _ _,
    c6_determinism [((0 : ℚ), 0), ((1 : ℚ), 1)] [((1 : ℚ), 1), ((0 : ℚ), 0)]
      2 2 1 (List.Perm.swap _ _ _)⟩

/-- C9 (amended): with an empty element sequence the accumulation is a
no-op for every grid size, including zero-area grids: it returns the
zeroed buffer of the requested size untouched.  But a zero-area grid
with a nonempty element sequence is NOT a no-op on the code: the
unconditional `count_buffer_ref[x + y * width].fetch_add(...)` indexes
an empty buffer (after `width as usize - 1` underflows for a zero
dimension) and panics. -/
theorem c9_degenerate (ps : List (ℚ × ℚ)) (W H : Nat) :
    accumulate [] W H = some (zeroGrid W H) ∧
    (ps ≠ [] → W * H = 0 → accumulate ps W H = none) := by
  refine ⟨rfl, ?_⟩
  intro hne hWH
  cases ps with
  | nil => exact absurd rfl hne
  | cons p l =>
    unfold accumulate accumList
    rw [List.foldl_cons, Option.some_bind,
      accumElem_of_not_lt (by rw [zeroGrid_length, hWH]; omega)]
    exact accumList_none W H l

theorem c9_degenerate_witness :
    ([((0 : ℚ), 0)] ≠ ([] : List (ℚ × ℚ)) ∧ 0 * 5 = 0) ∧
    (accumulate [] 0 5 = some (zeroGrid 0 5) ∧
      accumulate [((0 : ℚ), 0)] 0 5 = none) :=
  ⟨⟨by simp, rfl⟩,
    ⟨(c9_degenerate [((0 : ℚ), 0)] 0 5).1,
      (c9_degenerate [((0 : ℚ), 0)] 0 5).2 (by simp) rfl⟩⟩

/-- C9 counterexample: one element on a `0 × 0` grid makes the
accumulation fault (out-of-bounds indexing), instead of completing as a
no-op with the (empty) all-zero grid the claim demands. -/
theorem c9_counterexample :
    accumulate [((0 : ℚ), 0)] 0 0 ≠ some (zeroGrid 0 0) := by
  have h : accumulate [((0 : ℚ), 0)] 0 0 = none := by
    unfold accumulate accumList
    rw [List.foldl_cons, List.foldl_nil, Option.some_bind,
      accumElem_of_not_lt (by rw [zeroGrid_length]; omega)]
  rw [h]
  exact fun hc => Option.noConfusion hc

theorem poolNew_pos {n : Nat} (h : 1 ≤ n) :
    poolNew n = some ⟨List.replicate n ()⟩ := by
  unfold poolNew
  rw [if_pos h]

theorem threadCount_replicate (n : Nat) :
    threadCount ⟨List.replicate n ()⟩ = n % 2 ^ 32 := by
  unfold threadCount
  rw [List.length_replicate]

/-- C7 (amended): `Pool::new(0)` fails the `assert!(n >= 1)` and
produces no pool; for every `n ≥ 1` construction succeeds with exactly
`n` workers.  `Pool::thread_count`, however, returns
`threads.len() as u32`, i.e. `n` reduced modulo `2^32`; it equals `n`
exactly when `n < 2^32` (every realizable pool, but not every `usize`
argument the signature admits). -/
theorem c7_pool_new (n : Nat) (hn : 1 ≤ n) :
    poolNew 0 = none ∧
    ∃ p, poolNew n = some p ∧ p.threads.length = n ∧
      threadCount p = n % 2 ^ 32 ∧ (n < 2 ^ 32 → threadCount p = n) := by
  refine ⟨by norm_num [poolNew], ⟨⟨List.replicate n ()⟩, ?_, ?_, ?_, ?_⟩⟩
  · exact poolNew_pos hn
  · exact List.length_replicate n ()
  · exact threadCount_replicate n
  · intro h
    rw [threadCount_replicate, Nat.mod_eq_of_lt h]

theorem c7_pool_new_witness :
    (1 : Nat) ≤ 3 ∧
    (poolNew 0 = none ∧
      ∃ p, poolNew 3 = some p ∧ p.threads.length = 3 ∧
        threadCount p = 3 % 2 ^ 32 ∧ (3 < 2 ^ 32 → threadCount p = 3)) :=
  ⟨by norm_num, c7_pool_new 3 (by norm_num)⟩

/-- C7 counterexample: the claim promises `thread_count() = n` for every
`n ≥ 1`, but the `as u32` cast truncates: a pool built from
`n = 2^32` stores `2^32` worker handles while `thread_count` reports
`0`. -/
theorem c7_counterexample :
    poolNew (2 ^ 32) = some ⟨List.replicate (2 ^ 32) ()⟩ ∧
    (Pool.mk (List.replicate (2 ^ 32) ())).threads.length = 2 ^ 32 ∧
    threadCount ⟨List.replicate (2 ^ 32) ()⟩ = 0 := by
  refine ⟨poolNew_pos (by norm_num), List.length_replicate _ (), ?_⟩
  rw [threadCount_replicate, Nat.mod_self]

/-- C8 (amended): both call sites split the particle sequence into
contiguous chunks — concatenating the chunks restores the sequence — of
length `max(len / workers / 10, 1)`.  The chunk count is the ceiling
`⌈len / chunkLen⌉`; when `len ≥ 10 · workers` it is at least
`10 · workers` (the "about ten times the worker count" intent), but it
is not in general an exact multiple of the worker count. -/
theorem c8_partitioning (workers : Nat) (xs : List α) (hw : 1 ≤ workers) :
    (chunkList (chunkLen xs.length workers) xs).flatten = xs ∧
    (10 * workers ≤ xs.length →
      10 * workers ≤ (chunkList (chunkLen xs.length workers) xs).length) := by
  refine ⟨chunkList_join _ xs, ?_⟩
  intro hlen
  have hmax : max (chunkLen xs.length workers) 1 = chunkLen xs.length workers :=
    max_eq_left (le_max_right _ 1)
  have hcpos : 1 ≤ chunkLen xs.length workers := le_max_right _ 1
  have hdiv : xs.length / workers / 10 = xs.length / (workers * 10) :=
    Nat.div_div_eq_div_mul _ _ _
  have hq : 1 ≤ xs.length / (workers * 10) :=
    (Nat.le_div_iff_mul_le (by omega)).mpr (by omega)
  have hclen : chunkLen xs.length workers = xs.length / (workers * 10) := by
    unfold chunkLen
    rw [hdiv]
    exact max_eq_left hq
  have hcover := length_le_chunkList_mul (chunkLen xs.length workers) xs
  rw [hmax] at hcover
  have hcount : xs.length / chunkLen xs.length workers ≤
      (chunkList (chunkLen xs.length workers) xs).length := by
    have h2 := Nat.div_le_div_right (c := chunkLen xs.length workers) hcover
    rwa [Nat.mul_div_cancel _ (by omega)] at h2
  have hfin : 10 * workers ≤ xs.length / chunkLen xs.length workers := by
    rw [hclen]
    rw [Nat.le_div_iff_mul_le (by omega)]
    have hmul : xs.length / (workers * 10) * (workers * 10) ≤ xs.length :=
      Nat.div_mul_le_self _ _
    calc 10 * workers * (xs.length / (workers * 10))
        = xs.length / (workers * 10) * (workers * 10) := by ring
      _ ≤ xs.length := hmul
  omega

theorem c8_partitioning_witness :
    ((1 : Nat) ≤ 4 ∧ 10 * 4 ≤ (List.range 100).length) ∧
    ((chunkList (chunkLen (List.range 100).length 4) (List.range 100)).flatten
        = List.range 100 ∧
      10 * 4 ≤
        (chunkList (chunkLen (List.range 100).length 4) (List.range 100)).length) :=
  ⟨⟨by norm_num, by simp⟩,
    ⟨(c8_partitioning 4 (List.range 100) (by norm_num)).1,
      (c8_partitioning 4 (List.range 100) (by norm_num)).2 (by simp)⟩⟩

/-- C8 counterexample: `100` particles on `4` workers give a chunk
length of `max(100 / 4 / 10, 1) = 2` and hence `⌈100 / 2⌉ = 50`
chunks — not a multiple of the worker count `4` (and not `about ten
times` it either). -/
theorem c8_counterexample :
    ¬ (4 ∣ (chunkList (chunkLen 100 4) (List.range 100)).length) := by
  have hc : chunkLen 100 4 = 2 := by norm_num [chunkLen]
  have hl := chunkList_length (chunkLen 100 4) (List.range 100)
  rw [hc] at hl ⊢
  rw [List.length_range] at hl
  norm_num at hl
  rw [hl]
  norm_num

/-- C10 (confirmed): `Particles::add_particles` called on an empty
collection first pushes one `Particle::new_random` and then pushes
`n.saturating_sub 1` derived particles, ending with `max n 1`
particles — exactly `n` for `n ≥ 1` and exactly `1` for `n = 0`, so
the collection is always left non-empty; called on a collection of size
`k ≥ 1`, it pushes exactly `n` derived particles, ending with `k + n`. -/
theorem c10_add_particles (P : Type) (ps : List P) (n : Nat) (newRandom : P)
    (newFrom : P → P) (i0 : Nat) (dflt : P) :
    (addParticles ps n newRandom newFrom i0 dflt).length
        = (if ps.isEmpty then max n 1 else ps.length + n) ∧
      addParticles ps n newRandom newFrom i0 dflt ≠ [] := by
  have hlen : (addParticles ps n newRandom newFrom i0 dflt).length
      = (if ps.isEmpty then max n 1 else ps.length + n) := by
    unfold addParticles
    rw [addParticlesGo_length]
    by_cases hps : ps = []
    · subst hps
      simp
      omega
    · have h1 : ps.isEmpty = false := by
        simpa [List.isEmpty_iff] using hps
      simp [h1]
  refine ⟨hlen, ?_⟩
  have hpos : 0 < (addParticles ps n newRandom newFrom i0 dflt).length := by
    rw [hlen]
    by_cases hps : ps = []
    · subst hps
      simp
    · have h1 : ps.isEmpty = false := by
        simpa [List.isEmpty_iff] using hps
      have h2 : 0 < ps.length := List.length_pos.mpr hps
      simp [h1]
      omega
  exact List.length_pos.mp hpos

/-! ### Structure of the scope queue -/

theorem drop_cons_of_getElem? {l : List α} {k : Nat} {m : α}
    (h : l[k]? = some m) : l.drop k = m :: l.drop (k + 1) := by
  obtain ⟨hk, he⟩ := List.getElem?_eq_some_iff.mp h
  rw [List.drop_eq_getElem_cons hk, he]

theorem scopeQueue_getElem (jobs1 : List Nat) (n : Nat) (jobs2 : List Nat)
    (k : Nat) :
    (scopeQueue jobs1 n jobs2)[k]? =
      if k < jobs1.length then (jobs1[k]?).map (Msg.jobMsg 1)
      else if k < jobs1.length + n then some Msg.joinMsg
      else (jobs2[k - jobs1.length - n]?).map (Msg.jobMsg 2) := by
  unfold scopeQueue
  by_cases h1 : k < jobs1.length
  · have e1 : k < (List.map (Msg.jobMsg 1) jobs1 ++
        List.replicate n Msg.joinMsg).length := by
      rw [List.length_append, List.length_map, List.length_replicate]
      omega
    have e2 : k < (List.map (Msg.jobMsg 1) jobs1).length := by
      rw [List.length_map]
      omega
    rw [List.getElem?_append, if_pos e1, List.getElem?_append, if_pos e2,
      List.getElem?_map, if_pos h1]
  · by_cases h2 : k < jobs1.length + n
    · have e1 : k < (List.map (Msg.jobMsg 1) jobs1 ++
          List.replicate n Msg.joinMsg).length := by
        rw [List.length_append, List.length_map, List.length_replicate]
        omega
      have e2 : ¬ k < (List.map (Msg.jobMsg 1) jobs1).length := by
        rw [List.length_map]
        omega
      have e3 : k - (List.map (Msg.jobMsg 1) jobs1).length < n := by
        rw [List.length_map]
        omega
      rw [List.getElem?_append, if_pos e1, List.getElem?_append, if_neg e2,
        List.getElem?_replicate, if_pos e3, if_neg h1, if_pos h2]
    · have e1 : ¬ k < (List.map (Msg.jobMsg 1) jobs1 ++
          List.replicate n Msg.joinMsg).length := by
        rw [List.length_append, List.length_map, List.length_replicate]
        omega
      have e4 : k - (List.map (Msg.jobMsg 1) jobs1 ++
          List.replicate n Msg.joinMsg).length = k - jobs1.length - n := by
        rw [List.length_append, List.length_map, List.length_replicate]
        omega
      rw [List.getElem?_append, if_neg e1, List.getElem?_map, if_neg h1,
        if_neg h2, e4]

theorem scopeQueue_job_cases {jobs1 : List Nat} {n : Nat} {jobs2 : List Nat}
    {k sc t : Nat}
    (h : (scopeQueue jobs1 n jobs2)[k]? = some (Msg.jobMsg sc t)) :
    (k < jobs1.length ∧ sc = 1) ∨ (jobs1.length + n ≤ k ∧ sc = 2) := by
  rw [scopeQueue_getElem] at h
  by_cases h1 : k < jobs1.length
  · rw [if_pos h1] at h
    left
    refine ⟨h1, ?_⟩
    cases ho : jobs1[k]? with
    | none => rw [ho] at h; simp at h
    | some v =>
      rw [ho] at h
      simp at h
      omega
  · by_cases h2 : k < jobs1.length + n
    · rw [if_neg h1, if_pos h2] at h
      simp at h
    · rw [if_neg h1, if_neg h2] at h
      right
      refine ⟨by omega, ?_⟩
      cases ho : jobs2[k - jobs1.length - n]? with
      | none => rw [ho] at h; simp at h
      | some v =>
        rw [ho] at h
        simp at h
        omega

theorem scopeQueue_join_range {jobs1 : List Nat} {n : Nat} {jobs2 : List Nat}
    {k : Nat} (h : (scopeQueue jobs1 n jobs2)[k]? = some Msg.joinMsg) :
    jobs1.length ≤ k ∧ k < jobs1.length + n := by
  rw [scopeQueue_getElem] at h
  by_cases h1 : k < jobs1.length
  · rw [if_pos h1] at h
    cases ho : jobs1[k]? with
    | none => rw [ho] at h; simp at h
    | some v => rw [ho] at h; simp at h
  · by_cases h2 : k < jobs1.length + n
    · exact ⟨by omega, h2⟩
    · rw [if_neg h1, if_neg h2] at h
      cases ho : jobs2[k - jobs1.length - n]? with
      | none => rw [ho] at h; simp at h
      | some v => rw [ho] at h; simp at h

theorem joinCount_drop (jobs1 : List Nat) (n : Nat) (jobs2 : List Nat)
    (k : Nat) :
    joinCount ((scopeQueue jobs1 n jobs2).drop k)
      = min n (jobs1.length + n - k) := by
  unfold scopeQueue joinCount
  rw [List.drop_append_eq_append_drop, List.drop_append_eq_append_drop,
    List.countP_append, List.countP_append, List.drop_replicate]
  have hA : ∀ j : Nat, List.countP (fun m => decide (m = Msg.joinMsg))
      ((jobs1.map (Msg.jobMsg 1)).drop j) = 0 := by
    intro j
    rw [List.countP_eq_zero]
    intro a ha
    obtain ⟨b, _, hb⟩ := List.mem_map.mp (List.mem_of_mem_drop ha)
    subst hb
    simp
  have hB : ∀ j : Nat, List.countP (fun m => decide (m = Msg.joinMsg))
      ((jobs2.map (Msg.jobMsg 2)).drop j) = 0 := by
    intro j
    rw [List.countP_eq_zero]
    intro a ha
    obtain ⟨b, _, hb⟩ := List.mem_map.mp (List.mem_of_mem_drop ha)
    subst hb
    simp
  rw [hA, hB, List.countP_replicate, if_pos (by simp), List.length_map]
  omega

/-! ### Worker-multiset bookkeeping -/

theorem busyTags_cons_busy (sc t : Nat) (ws : Multiset WState) :
    busyTags (WState.busy sc t ::ₘ ws) = (sc, t) ::ₘ busyTags ws :=
  Multiset.filterMap_cons_some _ _ _ rfl

theorem busyTags_cons_idle (ws : Multiset WState) :
    busyTags (WState.idle ::ₘ ws) = busyTags ws :=
  Multiset.filterMap_cons_none _ _ rfl

theorem busyTags_cons_paused (ws : Multiset WState) :
    busyTags (WState.paused ::ₘ ws) = busyTags ws :=
  Multiset.filterMap_cons_none _ _ rfl

theorem busyTags_erase_idle {ws : Multiset WState} (h : WState.idle ∈ ws) :
    busyTags (ws.erase WState.idle) = busyTags ws := by
  conv_rhs => rw [← Multiset.cons_erase h]
  rw [busyTags_cons_idle]

theorem busyTags_erase_paused {ws : Multiset WState} (h : WState.paused ∈ ws) :
    busyTags (ws.erase WState.paused) = busyTags ws := by
  conv_rhs => rw [← Multiset.cons_erase h]
  rw [busyTags_cons_paused]

theorem busyTags_erase_busy {sc t : Nat} {ws : Multiset WState}
    (h : WState.busy sc t ∈ ws) :
    (sc, t) ::ₘ busyTags (ws.erase (WState.busy sc t)) = busyTags ws := by
  conv_rhs => rw [← Multiset.cons_erase h]
  rw [busyTags_cons_busy]

theorem busyTags_eq_zero {ws : Multiset WState}
    (h : ∀ w ∈ ws, w = WState.paused) : busyTags ws = 0 := by
  rw [Multiset.eq_zero_iff_forall_not_mem]
  intro pr hpr
  obtain ⟨w, hw, hf⟩ := (Multiset.mem_filterMap _ _).mp hpr
  rw [h w hw] at hf
  simp at hf

theorem busyTags_replicate_idle (n : Nat) :
    busyTags (Multiset.replicate n WState.idle) = 0 := by
  rw [Multiset.eq_zero_iff_forall_not_mem]
  intro pr hpr
  obtain ⟨w, hw, hf⟩ := (Multiset.mem_filterMap _ _).mp hpr
  rw [Multiset.eq_of_mem_replicate hw] at hf
  simp at hf

theorem queueTags_cons_job (sc t : Nat) (rest : List Msg) :
    queueTags (Msg.jobMsg sc t :: rest) = (sc, t) ::ₘ queueTags rest := rfl

theorem queueTags_cons_join (rest : List Msg) :
    queueTags (Msg.joinMsg :: rest) = queueTags rest := rfl

/-- Once the whole `jobs1 ++ Join^n` prefix is consumed, only scope-2
jobs remain queued. -/
theorem queueTags_drop_sc2 {jobs1 : List Nat} {n : Nat} {jobs2 : List Nat}
    {k : Nat} (hk : jobs1.length + n ≤ k) :
    ∀ pr ∈ queueTags ((scopeQueue jobs1 n jobs2).drop k), pr.1 = 2 := by
  intro pr hpr
  unfold scopeQueue at hpr
  rw [List.drop_append_eq_append_drop, List.drop_append_eq_append_drop] at hpr
  have h1 : (jobs1.map (Msg.jobMsg 1)).drop k = [] := by
    rw [List.drop_eq_nil_iff]
    rw [List.length_map]
    omega
  have h2 : (List.replicate n Msg.joinMsg).drop
      (k - (jobs1.map (Msg.jobMsg 1)).length) = [] := by
    rw [List.drop_replicate, List.replicate_eq_nil_iff, List.length_map]
    omega
  rw [h1, h2, List.nil_append, List.nil_append] at hpr
  unfold queueTags at hpr
  rw [Multiset.mem_coe] at hpr
  obtain ⟨m, hm, hf⟩ := List.mem_filterMap.mp hpr
  have hmem : m ∈ jobs2.map (Msg.jobMsg 2) := List.mem_of_mem_drop hm
  obtain ⟨b, _, hb⟩ := List.mem_map.mp hmem
  rw [← hb] at hf
  simp only [Option.some.injEq] at hf
  rw [← hf]

/-- All tags in the full queue, split by scope. -/
theorem queueTags_scopeQueue (jobs1 : List Nat) (n : Nat) (jobs2 : List Nat) :
    queueTags (scopeQueue jobs1 n jobs2)
      = ↑(jobs1.map fun t => ((1 : Nat), t)) +
        ↑(jobs2.map fun t => ((2 : Nat), t)) := by
  unfold scopeQueue queueTags
  rw [List.filterMap_append, List.filterMap_append]
  have hJ : (List.replicate n Msg.joinMsg).filterMap (fun m =>
      match m with
      | Msg.jobMsg sc t => some (sc, t)
      | _ => none) = [] := by
    induction n with
    | zero => rfl
    | succ m ih => rw [List.replicate_succ, List.filterMap_cons]; exact ih
  have hA : (jobs1.map (Msg.jobMsg 1)).filterMap (fun m =>
      match m with
      | Msg.jobMsg sc t => some (sc, t)
      | _ => none) = jobs1.map fun t => ((1 : Nat), t) := by
    induction jobs1 with
    | nil => rfl
    | cons a l ih => rw [List.map_cons, List.filterMap_cons, List.map_cons]; simpa using ih
  have hB : (jobs2.map (Msg.jobMsg 2)).filterMap (fun m =>
      match m with
      | Msg.jobMsg sc t => some (sc, t)
      | _ => none) = jobs2.map fun t => ((2 : Nat), t) := by
    induction jobs2 with
    | nil => rfl
    | cons a l ih => rw [List.map_cons, List.filterMap_cons, List.map_cons]; simpa using ih
  rw [hJ, hA, hB, List.append_nil]
  rw [← Multiset.coe_add]

/-- The invariant holds initially. -/
theorem inv_init (jobs1 : List Nat) (n : Nat) (jobs2 : List Nat) :
    Inv jobs1 n jobs2 (initSt n) := by
  constructor
  · simp [initSt]
  · show (0 : Multiset (Nat × Nat)) + busyTags (Multiset.replicate n WState.idle) +
      queueTags ((scopeQueue jobs1 n jobs2).drop 0) = queueTags (scopeQueue jobs1 n jobs2)
    rw [List.drop_zero, busyTags_replicate_idle, zero_add, zero_add]
  · intro _
    show (Multiset.replicate n WState.idle).count WState.paused +
      joinCount ((scopeQueue jobs1 n jobs2).drop 0) = n
    rw [Multiset.count_replicate,
      if_neg (by intro h; exact WState.noConfusion h), joinCount_drop]
    omega
  · intro h
    exact absurd h (by simp [initSt])
  · intro _
    refine ⟨by simp [initSt], ?_, ?_⟩
    · intro pr hpr
      exact absurd hpr (by simp [initSt])
    · intro sc t hmem
      have := Multiset.eq_of_mem_replicate hmem
      exact absurd this (by intro h; exact WState.noConfusion h)

theorem add_cons_swap (x : Nat × Nat) (A B C : Multiset (Nat × Nat)) :
    A + (x ::ₘ B) + C = A + B + (x ::ₘ C) := by
  rw [← Multiset.singleton_add, ← Multiset.singleton_add]
  abel

theorem card_cons_erase {w w2 : WState} {ws : Multiset WState} (h : w ∈ ws) :
    Multiset.card (w2 ::ₘ ws.erase w) = Multiset.card ws := by
  rw [Multiset.card_cons, Multiset.card_erase_of_mem h, Nat.pred_eq_sub_one]
  have hpos : 0 < Multiset.card ws := by
    rw [Multiset.card_pos_iff_exists_mem]
    exact ⟨w, h⟩
  omega

/-- Every step preserves the invariant. -/
theorem inv_step {jobs1 : List Nat} {n : Nat} {jobs2 : List Nat}
    (hn : 1 ≤ n) {s s2 : PoolSt} (hinv : Inv jobs1 n jobs2 s)
    (hstep : Step (scopeQueue jobs1 n jobs2) s s2) :
    Inv jobs1 n jobs2 s2 := by
  obtain ⟨hcard, hcons, hjoin, hacked, hpre⟩ := hinv
  cases hstep with
  | @dequeueJob sc t hidle hget =>
    have hdrop := drop_cons_of_getElem? hget
    have hpos := scopeQueue_job_cases hget
    constructor
    · show Multiset.card (WState.busy sc t ::ₘ s.workers.erase WState.idle) = n
      rw [card_cons_erase hidle]
      exact hcard
    · show s.completed +
        busyTags (WState.busy sc t ::ₘ s.workers.erase WState.idle) +
        queueTags ((scopeQueue jobs1 n jobs2).drop (s.k + 1)) = _
      rw [busyTags_cons_busy, busyTags_erase_idle hidle, add_cons_swap,
        ← queueTags_cons_job sc t, ← hdrop]
      exact hcons
    · intro ha
      show (WState.busy sc t ::ₘ s.workers.erase WState.idle).count
          WState.paused +
        joinCount ((scopeQueue jobs1 n jobs2).drop (s.k + 1)) = n
      rw [Multiset.count_cons_of_ne (by intro h; exact WState.noConfusion h),
        Multiset.count_erase_of_ne (by intro h; exact WState.noConfusion h)]
      have hj := hjoin ha
      rw [joinCount_drop] at hj ⊢
      rcases hpos with ⟨hlt, _⟩ | ⟨hge, _⟩
      · omega
      · omega
    · intro ha
      obtain ⟨hk, hb1⟩ := hacked ha
      refine ⟨by show jobs1.length + n ≤ s.k + 1; omega, ?_⟩
      intro t' hmem
      rcases Multiset.mem_cons.mp hmem with heq | hmem2
      · rcases hpos with ⟨hlt, _⟩ | ⟨_, hsc2⟩
        · omega
        · injection heq with h1 h2
          omega
      · exact hb1 t' (Multiset.mem_of_mem_erase hmem2)
    · intro ha
      obtain ⟨hk, hcomp, hbusy⟩ := hpre ha
      have hlt : s.k < jobs1.length := by
        rcases hpos with ⟨h, _⟩ | ⟨hge, _⟩
        · exact h
        · exfalso
          have hj := hjoin ha
          rw [joinCount_drop] at hj
          have hcnt : s.workers.count WState.paused = n := by omega
          have hall : ∀ x ∈ s.workers, WState.paused = x :=
            Multiset.count_eq_card.mp (by rw [hcnt, hcard])
          exact WState.noConfusion (hall WState.idle hidle)
      have hsc1 : sc = 1 := by
        rcases hpos with ⟨_, h⟩ | ⟨hge, _⟩
        · exact h
        · omega
      refine ⟨by show s.k + 1 ≤ jobs1.length + n; omega, hcomp, ?_⟩
      intro sc' t' hmem
      rcases Multiset.mem_cons.mp hmem with heq | hmem2
      · injection heq with h1 h2
        omega
      · exact hbusy sc' t' (Multiset.mem_of_mem_erase hmem2)
  | dequeueJoin hidle hget =>
    have hdrop := drop_cons_of_getElem? hget
    have hpos := scopeQueue_join_range hget
    constructor
    · show Multiset.card (WState.paused ::ₘ s.workers.erase WState.idle) = n
      rw [card_cons_erase hidle]
      exact hcard
    · show s.completed +
        busyTags (WState.paused ::ₘ s.workers.erase WState.idle) +
        queueTags ((scopeQueue jobs1 n jobs2).drop (s.k + 1)) = _
      rw [busyTags_cons_paused, busyTags_erase_idle hidle,
        ← queueTags_cons_join, ← hdrop]
      exact hcons
    · intro ha
      show (WState.paused ::ₘ s.workers.erase WState.idle).count
          WState.paused +
        joinCount ((scopeQueue jobs1 n jobs2).drop (s.k + 1)) = n
      rw [Multiset.count_cons_self,
        Multiset.count_erase_of_ne (by intro h; exact WState.noConfusion h)]
      have hj := hjoin ha
      rw [joinCount_drop] at hj ⊢
      omega
    · intro ha
      obtain ⟨hk, hb1⟩ := hacked ha
      refine ⟨by show jobs1.length + n ≤ s.k + 1; omega, ?_⟩
      intro t' hmem
      rcases Multiset.mem_cons.mp hmem with heq | hmem2
      · exact WState.noConfusion heq
      · exact hb1 t' (Multiset.mem_of_mem_erase hmem2)
    · intro ha
      obtain ⟨hk, hcomp, hbusy⟩ := hpre ha
      refine ⟨by show s.k + 1 ≤ jobs1.length + n; omega, hcomp, ?_⟩
      intro sc' t' hmem
      rcases Multiset.mem_cons.mp hmem with heq | hmem2
      · exact WState.noConfusion heq
      · exact hbusy sc' t' (Multiset.mem_of_mem_erase hmem2)
  | @finish sc t hbusy =>
    constructor
    · show Multiset.card
        (WState.idle ::ₘ s.workers.erase (WState.busy sc t)) = n
      rw [card_cons_erase hbusy]
      exact hcard
    · show ((sc, t) ::ₘ s.completed) +
        busyTags (WState.idle ::ₘ s.workers.erase (WState.busy sc t)) +
        queueTags ((scopeQueue jobs1 n jobs2).drop s.k) = _
      rw [busyTags_cons_idle]
      calc ((sc, t) ::ₘ s.completed) +
            busyTags (s.workers.erase (WState.busy sc t)) +
            queueTags ((scopeQueue jobs1 n jobs2).drop s.k)
          = s.completed +
            ((sc, t) ::ₘ busyTags (s.workers.erase (WState.busy sc t))) +
            queueTags ((scopeQueue jobs1 n jobs2).drop s.k) := by
            rw [← Multiset.singleton_add, ← Multiset.singleton_add]
            abel
        _ = _ := by rw [busyTags_erase_busy hbusy]; exact hcons
    · intro ha
      show (WState.idle ::ₘ s.workers.erase (WState.busy sc t)).count
          WState.paused +
        joinCount ((scopeQueue jobs1 n jobs2).drop s.k) = n
      rw [Multiset.count_cons_of_ne (by intro h; exact WState.noConfusion h),
        Multiset.count_erase_of_ne (by intro h; exact WState.noConfusion h)]
      exact hjoin ha
    · intro ha
      obtain ⟨hk, hb1⟩ := hacked ha
      refine ⟨hk, ?_⟩
      intro t' hmem
      rcases Multiset.mem_cons.mp hmem with heq | hmem2
      · exact WState.noConfusion heq
      · exact hb1 t' (Multiset.mem_of_mem_erase hmem2)
    · intro ha
      obtain ⟨hk, hcomp, hbusy1⟩ := hpre ha
      refine ⟨hk, ?_, ?_⟩
      · intro pr hpr
        rcases Multiset.mem_cons.mp hpr with heq | hmem2
        · rw [heq]
          exact hbusy1 sc t hbusy
        · exact hcomp pr hmem2
      · intro sc' t' hmem
        rcases Multiset.mem_cons.mp hmem with heq | hmem2
        · exact WState.noConfusion heq
        · exact hbusy1 sc' t' (Multiset.mem_of_mem_erase hmem2)
  | ack hall =>
    constructor
    · exact hcard
    · exact hcons
    · intro ha
      exact absurd ha (by simp)
    · intro _
      cases ha : s.acked with
      | true =>
        obtain ⟨hk, hb1⟩ := hacked ha
        exact ⟨hk, hb1⟩
      | false =>
        have hj := hjoin ha
        have hcnt : s.workers.count WState.paused = Multiset.card s.workers :=
          Multiset.count_eq_card.mpr fun x hx => (hall x hx).symm
        rw [hcnt, hcard, joinCount_drop] at hj
        refine ⟨by show jobs1.length + n ≤ s.k; omega, ?_⟩
        intro t' hmem
        exact WState.noConfusion (hall _ hmem)
    · intro ha
      exact absurd ha (by simp)
  | resume hackedT hpausedm =>
    constructor
    · show Multiset.card (WState.idle ::ₘ s.workers.erase WState.paused) = n
      rw [card_cons_erase hpausedm]
      exact hcard
    · show s.completed +
        busyTags (WState.idle ::ₘ s.workers.erase WState.paused) +
        queueTags ((scopeQueue jobs1 n jobs2).drop s.k) = _
      rw [busyTags_cons_idle, busyTags_erase_paused hpausedm]
      exact hcons
    · intro ha
      rw [hackedT] at ha
      exact absurd ha (by simp)
    · intro _
      obtain ⟨hk, hb1⟩ := hacked hackedT
      refine ⟨hk, ?_⟩
      intro t' hmem
      rcases Multiset.mem_cons.mp hmem with heq | hmem2
      · exact WState.noConfusion heq
      · exact hb1 t' (Multiset.mem_of_mem_erase hmem2)
    · intro ha
      rw [hackedT] at ha
      exact absurd ha (by simp)

/-- Every reachable state satisfies the invariant. -/
theorem reach_inv {jobs1 : List Nat} {n : Nat} {jobs2 : List Nat}
    (hn : 1 ≤ n) {s : PoolSt} (hreach : Reach jobs1 n jobs2 s) :
    Inv jobs1 n jobs2 s := by
  induction hreach with
  | refl => exact inv_init jobs1 n jobs2
  | tail _ hstep ih => exact inv_step hn ih hstep

/-- Filtering the conservation law by scope 1: once the queue is past
the `Join` block and no scope-1 job is being executed, the completed
scope-1 jobs are exactly the submitted ones. -/
theorem completedOf1_eq {jobs1 : List Nat} {n : Nat} {jobs2 : List Nat}
    {s : PoolSt}
    (hcons : s.completed + busyTags s.workers +
      queueTags ((scopeQueue jobs1 n jobs2).drop s.k)
        = queueTags (scopeQueue jobs1 n jobs2))
    (hk : jobs1.length + n ≤ s.k)
    (hbfil : Multiset.filter (fun pr : Nat × Nat => pr.1 = 1)
      (busyTags s.workers) = 0) :
    completedOf 1 s = ↑(jobs1.map fun t => ((1 : Nat), t)) := by
  have hfil := congrArg (Multiset.filter fun pr : Nat × Nat => pr.1 = 1) hcons
  rw [Multiset.filter_add, Multiset.filter_add, hbfil,
    queueTags_scopeQueue, Multiset.filter_add] at hfil
  have hq2 : Multiset.filter (fun pr : Nat × Nat => pr.1 = 1)
      (queueTags ((scopeQueue jobs1 n jobs2).drop s.k)) = 0 := by
    rw [Multiset.filter_eq_nil]
    intro pr hpr
    have h2 := queueTags_drop_sc2 hk pr hpr
    omega
  have hm1 : Multiset.filter (fun pr : Nat × Nat => pr.1 = 1)
      ↑(jobs1.map fun t => ((1 : Nat), t))
        = (↑(jobs1.map fun t => ((1 : Nat), t)) : Multiset (Nat × Nat)) := by
    rw [Multiset.filter_eq_self]
    intro pr hpr
    rw [Multiset.mem_coe] at hpr
    obtain ⟨b, _, hb⟩ := List.mem_map.mp hpr
    rw [← hb]
  have hm2 : Multiset.filter (fun pr : Nat × Nat => pr.1 = 1)
      ↑(jobs2.map fun t => ((2 : Nat), t)) = 0 := by
    rw [Multiset.filter_eq_nil]
    intro pr hpr
    rw [Multiset.mem_coe] at hpr
    obtain ⟨b, _, hb⟩ := List.mem_map.mp hpr
    rw [← hb]
    omega
  rw [hq2, hm1, hm2, add_zero, add_zero] at hfil
  rw [← add_zero (↑(jobs1.map fun t => ((1 : Nat), t)) : Multiset (Nat × Nat))]
  exact hfil

/-- C1 (confirmed): the join barrier is complete only when every worker
has dequeued its `Join` message and acknowledged it (every worker
`paused`), and `join_all` returns only after receiving all those
acknowledgments.  In any reachable state in which all workers are
paused, every job submitted before the `Join` messages has fully
executed — the completed scope-1 jobs are exactly (as a multiset) the
submitted scope-1 jobs — and no job is still running.  The `Drop`
implementation of `Scope` calls `join_all`, so this holds whenever the
scope value goes out of existence, including during unwinding. -/
theorem c1_join_completeness (jobs1 jobs2 : List Nat) (n : Nat) (s : PoolSt)
    (hn : 1 ≤ n) (hreach : Reach jobs1 n jobs2 s)
    (hpaused : ∀ w ∈ s.workers, w = WState.paused) :
    completedOf 1 s = ↑(jobs1.map fun t => ((1 : Nat), t)) ∧
      busyTags s.workers = 0 := by
  have hinv := reach_inv hn hreach
  have hb0 : busyTags s.workers = 0 := busyTags_eq_zero hpaused
  have hk : jobs1.length + n ≤ s.k := by
    cases ha : s.acked with
    | false =>
      have hj := hinv.hjoin ha
      have hcnt : s.workers.count WState.paused = n := by
        rw [Multiset.count_eq_card.mpr fun x hx => (hpaused x hx).symm,
          hinv.hcard]
      rw [hcnt, joinCount_drop] at hj
      omega
    | true => exact (hinv.hacked ha).1
  refine ⟨completedOf1_eq hinv.hcons hk ?_, hb0⟩
  rw [hb0]
  rfl

/-- C2 (confirmed): two sequential scopes on one pool never interleave.
Even if scope 2's jobs were already sitting in the queue behind scope
1's `Join` block (a superset of the real program, which only submits
them after `join_all` returns), no worker can start a scope-2 job until
all `Join` messages are consumed, which requires every worker paused
and hence — by conservation — every scope-1 job finished.  In any
reachable state where some scope-2 job has started (is running or
completed), the completed scope-1 jobs are exactly the submitted
ones. -/
theorem c2_scope_sequencing (jobs1 jobs2 : List Nat) (n : Nat) (s : PoolSt)
    (hn : 1 ≤ n) (hreach : Reach jobs1 n jobs2 s) (hs : started2 s) :
    completedOf 1 s = ↑(jobs1.map fun t => ((1 : Nat), t)) := by
  have hinv := reach_inv hn hreach
  have hackedTrue : s.acked = true := by
    cases ha : s.acked with
    | true => rfl
    | false =>
      exfalso
      obtain ⟨hk, hcomp, hbusy⟩ := hinv.hpre ha
      cases hs with
      | inl h =>
        obtain ⟨t, ht⟩ := h
        have := hcomp _ ht
        simp at this
      | inr h =>
        obtain ⟨t, ht⟩ := h
        have := hbusy _ _ ht
        omega
  obtain ⟨hk, hbusy1⟩ := hinv.hacked hackedTrue
  refine completedOf1_eq hinv.hcons hk ?_
  rw [Multiset.filter_eq_nil]
  intro pr hpr
  obtain ⟨w, hw, hf⟩ := (Multiset.mem_filterMap _ _).mp hpr
  cases w with
  | idle => simp at hf
  | paused => simp at hf
  | busy sc t =>
    simp only [Option.some.injEq] at hf
    intro hpr1
    rw [← hf] at hpr1
    simp at hpr1
    rw [hpr1] at hw
    exact hbusy1 t hw

theorem step_cast {q : List Msg} {s s1 s2 : PoolSt} (h : Step q s s1)
    (he : s1 = s2) : Step q s s2 := he ▸ h

theorem c1_chain :
    Reach [5] 1 []
      ⟨2, {WState.paused}, {((1 : Nat), (5 : Nat))}, false⟩ := by
  have h1 : Step (scopeQueue [5] 1 []) (initSt 1)
      ⟨1, {WState.busy 1 5}, 0, false⟩ :=
    step_cast (@Step.dequeueJob (scopeQueue [5] 1 []) (initSt 1) 1 5
      (by decide) (by decide)) (by decide)
  have h2 : Step (scopeQueue [5] 1 []) ⟨1, {WState.busy 1 5}, 0, false⟩
      ⟨1, {WState.idle}, {((1 : Nat), (5 : Nat))}, false⟩ :=
    step_cast (@Step.finish (scopeQueue [5] 1 [])
      ⟨1, {WState.busy 1 5}, 0, false⟩ 1 5 (by decide)) (by decide)
  have h3 : Step (scopeQueue [5] 1 [])
      ⟨1, {WState.idle}, {((1 : Nat), (5 : Nat))}, false⟩
      ⟨2, {WState.paused}, {((1 : Nat), (5 : Nat))}, false⟩ :=
    step_cast (Step.dequeueJoin (by decide) (by decide)) (by decide)
  exact Relation.ReflTransGen.head h1
    (Relation.ReflTransGen.head h2 (Relation.ReflTransGen.head h3 .refl))

theorem c1_join_completeness_witness :
    ((1 : Nat) ≤ 1 ∧
      Reach [5] 1 [] ⟨2, {WState.paused}, {((1 : Nat), (5 : Nat))}, false⟩ ∧
      ∀ w ∈ ({WState.paused} : Multiset WState), w = WState.paused) ∧
    (completedOf 1 ⟨2, {WState.paused}, {((1 : Nat), (5 : Nat))}, false⟩
        = ↑([5].map fun t => ((1 : Nat), t)) ∧
      busyTags ({WState.paused} : Multiset WState) = 0) :=
  ⟨⟨le_refl 1, c1_chain, by decide⟩,
    c1_join_completeness [5] [] 1 _ (le_refl 1) c1_chain (by decide)⟩

theorem c2_chain :
    Reach [5] 1 [7]
      ⟨3, {WState.busy 2 7}, {((1 : Nat), (5 : Nat))}, true⟩ := by
  have h1 : Step (scopeQueue [5] 1 [7]) (initSt 1)
      ⟨1, {WState.busy 1 5}, 0, false⟩ :=
    step_cast (@Step.dequeueJob (scopeQueue [5] 1 [7]) (initSt 1) 1 5
      (by decide) (by decide)) (by decide)
  have h2 : Step (scopeQueue [5] 1 [7]) ⟨1, {WState.busy 1 5}, 0, false⟩
      ⟨1, {WState.idle}, {((1 : Nat), (5 : Nat))}, false⟩ :=
    step_cast (@Step.finish (scopeQueue [5] 1 [7])
      ⟨1, {WState.busy 1 5}, 0, false⟩ 1 5 (by decide)) (by decide)
  have h3 : Step (scopeQueue [5] 1 [7])
      ⟨1, {WState.idle}, {((1 : Nat), (5 : Nat))}, false⟩
      ⟨2, {WState.paused}, {((1 : Nat), (5 : Nat))}, false⟩ :=
    step_cast (Step.dequeueJoin (by decide) (by decide)) (by decide)
  have h4 : Step (scopeQueue [5] 1 [7])
      ⟨2, {WState.paused}, {((1 : Nat), (5 : Nat))}, false⟩
      ⟨2, {WState.paused}, {((1 : Nat), (5 : Nat))}, true⟩ :=
    step_cast (Step.ack (by decide)) (by decide)
  have h5 : Step (scopeQueue [5] 1 [7])
      ⟨2, {WState.paused}, {((1 : Nat), (5 : Nat))}, true⟩
      ⟨2, {WState.idle}, {((1 : Nat), (5 : Nat))}, true⟩ :=
    step_cast (Step.resume (by decide) (by decide)) (by decide)
  have h6 : Step (scopeQueue [5] 1 [7])
      ⟨2, {WState.idle}, {((1 : Nat), (5 : Nat))}, true⟩
      ⟨3, {WState.busy 2 7}, {((1 : Nat), (5 : Nat))}, true⟩ :=
    step_cast (@Step.dequeueJob (scopeQueue [5] 1 [7])
      ⟨2, {WState.idle}, {((1 : Nat), (5 : Nat))}, true⟩ 2 7
      (by decide) (by decide)) (by decide)
  exact Relation.ReflTransGen.head h1 (Relation.ReflTransGen.head h2
    (Relation.ReflTransGen.head h3 (Relation.ReflTransGen.head h4
      (Relation.ReflTransGen.head h5
        (Relation.ReflTransGen.head h6 .refl)))))

theorem c2_scope_sequencing_witness :
    ((1 : Nat) ≤ 1 ∧
      Reach [5] 1 [7] ⟨3, {WState.busy 2 7}, {((1 : Nat), (5 : Nat))}, true⟩ ∧
      started2 ⟨3, {WState.busy 2 7}, {((1 : Nat), (5 : Nat))}, true⟩) ∧
    completedOf 1 ⟨3, {WState.busy 2 7}, {((1 : Nat), (5 : Nat))}, true⟩
      = ↑([5].map fun t => ((1 : Nat), t)) :=
  ⟨⟨le_refl 1, c2_chain, Or.inr ⟨7, by decide⟩⟩,
    c2_scope_sequencing [5] [7] 1 _ (le_refl 1) c2_chain
      (Or.inr ⟨7, by decide⟩)⟩

/-- C3 (corrected/amended): after a job panic kills a worker, the
enclosing scope's `join_all` — the first join call to run after the
panic — surfaces the failure synchronously: it collects an
acknowledgment slot for every entry of the thread list (so all
surviving workers have paused) and then panics with an explicit
message.  But a later submission does NOT fail fast while any worker
survives: `execute`'s `send` is non-blocking and succeeds, because a
surviving worker keeps the receiver alive; the submission is accepted
rather than rejected.  Only when every worker has exited does
submission fail fast with the explicit channel-closed panic.  (That
first `join_all` panics before its resume loop, so nothing here is
claimed about later `join_all` calls on the same pool.) -/
theorem c3_panic_surfacing (alive : List Bool) (hdead : false ∈ alive) :
    (0 < aliveCount alive →
      joinAllResult alive = Except.error "Thread pool worker panicked" ∧
      executeResult alive = Except.ok ()) ∧
    (aliveCount alive = 0 →
      joinAllResult alive = Except.error "sending on a closed channel" ∧
      executeResult alive = Except.error "sending on a closed channel") := by
  constructor
  · intro hpos
    constructor
    · unfold joinAllResult
      rw [if_neg (by omega)]
      have hany : (collectAcks alive).any (fun o => o.isNone) = true := by
        rw [List.any_eq_true]
        refine ⟨none, ?_, rfl⟩
        unfold collectAcks
        rw [List.mem_map]
        exact ⟨false, hdead, by simp⟩
      rw [if_pos hany]
    · unfold executeResult
      rw [if_neg (by omega)]
  · intro h0
    constructor
    · unfold joinAllResult
      rw [if_pos h0]
    · unfold executeResult
      rw [if_pos h0]

theorem c3_panic_surfacing_witness :
    (false ∈ [false, true]) ∧
    ((0 < aliveCount [false, true] →
      joinAllResult [false, true] = Except.error "Thread pool worker panicked" ∧
      executeResult [false, true] = Except.ok ()) ∧
    (aliveCount [false, true] = 0 →
      joinAllResult [false, true] = Except.error "sending on a closed channel" ∧
      executeResult [false, true] =
        Except.error "sending on a closed channel")) :=
  ⟨by decide, c3_panic_surfacing [false, true] (by decide)⟩

/-- C3 counterexample: a pool of two workers, one of which has panicked
and died (`alive = [true, false]`).  The claim demands that any further
submission fail fast with a pool-defunct condition; in the code
`Scope::execute`'s `send` still succeeds because the surviving worker
holds the receiving end, so the submission is accepted. -/
theorem c3_counterexample :
    (false ∈ [true, false]) ∧
    executeResult [true, false] = Except.ok () :=
  ⟨by decide, rfl⟩

end Particles
